import Mathlib

/-!
Shallow embedding of `src/main.py` of the CurseForgeParser repository:
a paginated-catalog crawler consisting of a retrying rate-limited fetcher
(`Fetcher.fetch_html`), pure text parsers (`parse_downloads`,
`parse_mmddyyyy`, `parse_card`), a page producer and a deduplicating
consumer connected by a FIFO `asyncio.Queue`, and a CSV sink read back at
startup by `load_existing_slugs`.

Modelling conventions:
* Python floats are modelled as exact rational arithmetic; Python's
  `round` (round half to even) is `roundHalfEven` on exact fractions.
* `asyncio` sleeps and the semaphore affect timing only, never values;
  the FIFO queue between the single producer and the single consumer is
  modelled by the list of queue items in emission order.
* Network and page-parse outcomes are supplied by oracles
  (`Nat → Outcome` for the per-attempt HTTP outcome,
  `Int → PageFetch` for the per-page fetch-and-parse outcome).
-/

/-- One attempt's network outcome as distinguished by `Fetcher.fetch_html`
(src/main.py lines 200-225): an HTTP response with status code and body
text, an `asyncio.TimeoutError`, or an `aiohttp.ClientError`. -/
inductive Outcome where
  | resp (status : Nat) (body : String)
  | timeout
  | clientError
deriving DecidableEq, Repr

/-- Result of one `fetch_html` call: the value returned, the number of
attempts consumed, and the list of backoff waits slept (the uniform
random jitter term `random.random() * 0.5` is omitted), in order. -/
structure FetchResult where
  result : Option String
  attempts : Nat
  waits : List ℚ
deriving DecidableEq, Repr

/-- The retry loop of `Fetcher.fetch_html` (src/main.py lines 200-225).
`o k` is the outcome of attempt `k + 1`; `attempt` counts finished
attempts; `backoff` is the current backoff value (initially `0.8`,
multiplied by `1.7` after every attempt that does not return); the first
numeric argument is the number of attempts remaining out of
`max_attempts`.  A 404 response returns `None` at once; a 200 response
with a non-empty body returns the body; every other outcome — retryable
status, other bad status, a 200 response with an empty body, timeout,
client error — falls through to the backoff sleep and the next attempt. -/
def fetchLoop (o : Nat → Outcome) : Nat → Nat → ℚ → FetchResult
  | 0, attempt, _ => ⟨none, attempt, []⟩
  | rem + 1, attempt, backoff =>
    match o attempt with
    | Outcome.resp s body =>
      if s = 404 then ⟨none, attempt + 1, []⟩
      else if s = 200 ∧ body ≠ "" then ⟨some body, attempt + 1, []⟩
      else
        let r := fetchLoop o rem (attempt + 1) (backoff * (17 / 10))
        ⟨r.result, r.attempts, backoff :: r.waits⟩
    | _ =>
      let r := fetchLoop o rem (attempt + 1) (backoff * (17 / 10))
      ⟨r.result, r.attempts, backoff :: r.waits⟩

/-- `Fetcher.fetch_html(url, max_attempts)`: run the retry loop starting
with zero finished attempts and backoff `0.8`. -/
def fetch_html (o : Nat → Outcome) (max_attempts : Nat) : FetchResult :=
  fetchLoop o max_attempts 0 (4 / 5)

/-- An outcome on which `fetch_html` neither returns the body nor returns
`None` early: timeouts, client errors, any status other than 404 that is
not a 200 with non-empty body (this includes the retryable statuses 429,
500, 502, 503, 504, every other bad status, and a 200 response whose body
is empty). -/
def retryable : Outcome → Prop
  | Outcome.resp s body => s ≠ 404 ∧ ¬(s = 200 ∧ body ≠ "")
  | Outcome.timeout => True
  | Outcome.clientError => True

theorem fetchLoop_retry_step (o : Nat → Outcome) (rem attempt : Nat) (backoff : ℚ)
    (h : retryable (o attempt)) :
    fetchLoop o (rem + 1) attempt backoff =
      ⟨(fetchLoop o rem (attempt + 1) (backoff * (17 / 10))).result,
       (fetchLoop o rem (attempt + 1) (backoff * (17 / 10))).attempts,
       backoff :: (fetchLoop o rem (attempt + 1) (backoff * (17 / 10))).waits⟩ := by
  cases hoc : o attempt with
  | resp s body =>
      unfold retryable at h
      rw [hoc] at h
      simp only [fetchLoop, hoc]
      rw [if_neg h.1, if_neg h.2]
  | timeout => simp only [fetchLoop, hoc]
  | clientError => simp only [fetchLoop, hoc]

theorem fetchLoop_all_retryable (o : Nat → Outcome) :
    ∀ rem attempt backoff,
      (∀ k, attempt ≤ k → k < attempt + rem → retryable (o k)) →
      (fetchLoop o rem attempt backoff).result = none ∧
      (fetchLoop o rem attempt backoff).attempts = attempt + rem := by
  intro rem
  induction rem with
  | zero => intro a b _; simp [fetchLoop]
  | succ m ih =>
      intro a b h
      have ha : retryable (o a) := h a le_rfl (by omega)
      rw [fetchLoop_retry_step o m a b ha]
      have h2 := ih (a + 1) (b * (17 / 10)) (fun k h1 h2 => h k (by omega) (by omega))
      refine ⟨h2.1, ?_⟩
      simp only [h2.2]
      omega

theorem fetchLoop_404 (o : Nat → Outcome) :
    ∀ rem attempt backoff n body, n < rem →
      (∀ k, attempt ≤ k → k < attempt + n → retryable (o k)) →
      o (attempt + n) = Outcome.resp 404 body →
      (fetchLoop o rem attempt backoff).result = none ∧
      (fetchLoop o rem attempt backoff).attempts = attempt + n + 1 := by
  intro rem
  induction rem with
  | zero => intro a b n body hn _ _; omega
  | succ m ih =>
      intro a b n body hn hr h404
      cases n with
      | zero =>
          rw [Nat.add_zero] at h404
          simp [fetchLoop, h404]
      | succ n' =>
          have ha : retryable (o a) := hr a le_rfl (by omega)
          rw [fetchLoop_retry_step o m a b ha]
          have h2 := ih (a + 1) (b * (17 / 10)) n' body (by omega)
            (fun k h1 h2 => hr k (by omega) (by omega))
            (by rw [show a + 1 + n' = a + (n' + 1) by omega]; exact h404)
          refine ⟨h2.1, ?_⟩
          simp only [h2.2]
          omega

theorem fetchLoop_success_nonempty (o : Nat → Outcome) :
    ∀ rem attempt backoff s,
      (fetchLoop o rem attempt backoff).result = some s → s ≠ "" := by
  intro rem
  induction rem with
  | zero => intro a b s h; simp [fetchLoop] at h
  | succ m ih =>
      intro a b s h
      cases hoc : o a with
      | resp st body =>
          simp only [fetchLoop, hoc] at h
          by_cases h404 : st = 404
          · rw [if_pos h404] at h; simp at h
          · rw [if_neg h404] at h
            by_cases hsucc : st = 200 ∧ body ≠ ""
            · rw [if_pos hsucc] at h
              simp only [Option.some.injEq] at h
              rw [← h]
              exact hsucc.2
            · rw [if_neg hsucc] at h
              exact ih (a + 1) (b * (17 / 10)) s h
      | timeout =>
          simp only [fetchLoop, hoc] at h
          exact ih (a + 1) (b * (17 / 10)) s h
      | clientError =>
          simp only [fetchLoop, hoc] at h
          exact ih (a + 1) (b * (17 / 10)) s h

theorem fetchLoop_waits_formula (o : Nat → Outcome) :
    ∀ rem attempt backoff, ∃ j, j ≤ rem ∧
      (fetchLoop o rem attempt backoff).waits =
        (List.range j).map (fun i => backoff * (17 / 10) ^ i) := by
  intro rem
  induction rem with
  | zero => intro a b; exact ⟨0, le_rfl, by simp [fetchLoop]⟩
  | succ m ih =>
      intro a b
      have step : ∀ h : retryable (o a), ∃ j, j ≤ m + 1 ∧
          (fetchLoop o (m + 1) a b).waits =
            (List.range j).map (fun i => b * (17 / 10) ^ i) := by
        intro h
        obtain ⟨j, hj, hw⟩ := ih (a + 1) (b * (17 / 10))
        refine ⟨j + 1, by omega, ?_⟩
        rw [fetchLoop_retry_step o m a b h]
        simp only [hw, List.range_succ_eq_map, List.map_cons, List.map_map]
        rw [pow_zero, mul_one]
        congr 1
        apply List.map_congr_left
        intro i _
        simp only [Function.comp_apply, pow_succ]
        ring
      cases hoc : o a with
      | resp s body =>
          by_cases h404 : s = 404
          · refine ⟨0, by omega, ?_⟩
            simp [fetchLoop, hoc, h404]
          · by_cases hsucc : s = 200 ∧ body ≠ ""
            · refine ⟨0, by omega, ?_⟩
              simp only [fetchLoop, hoc]
              rw [if_neg h404, if_pos hsucc]
              simp
            · exact step (by rw [hoc]; exact ⟨h404, hsucc⟩)
      | timeout => exact step (by rw [hoc]; trivial)
      | clientError => exact step (by rw [hoc]; trivial)

theorem chain_lt_range_map (f : Nat → ℚ) (hf : ∀ i, f i < f (i + 1)) :
    ∀ j, List.Chain' (· < ·) ((List.range j).map f) := by
  intro j
  rw [List.chain'_map]
  cases j with
  | zero => simp
  | succ m =>
      rw [List.chain'_range_succ]
      intro i _
      exact hf i

/-- C6: backoff monotonicity — the waits `fetch_html` sleeps between
attempts are exactly `0.8 * 1.7 ^ i` (jitter ignored) and form a strictly
increasing sequence, so the wait before attempt `k + 1` strictly exceeds
the wait before attempt `k`, for every `k` up to the attempt ceiling. -/
theorem c6_backoff_strict_mono (o : Nat → Outcome) (max_attempts : Nat) :
    ∃ j, (fetch_html o max_attempts).waits =
        (List.range j).map (fun i => (4 / 5 : ℚ) * (17 / 10) ^ i) ∧
      List.Chain' (· < ·) ((fetch_html o max_attempts).waits) := by
  obtain ⟨j, _, hw⟩ := fetchLoop_waits_formula o max_attempts 0 (4 / 5)
  refine ⟨j, hw, ?_⟩
  rw [show (fetch_html o max_attempts).waits = (fetchLoop o max_attempts 0 (4 / 5)).waits from rfl,
    hw]
  apply chain_lt_range_map
  intro i
  have hp : (0 : ℚ) < (17 / 10) ^ i := by positivity
  rw [pow_succ]
  nlinarith

/-- C4: fetch result contract — `fetch_html` never throws to its caller;
a 404 response returns `None` immediately (no further attempt is made:
exactly `n + 1` attempts are consumed when the 404 arrives on attempt
`n + 1`), and when every one of the 4 attempts meets a retryable outcome
(timeout, transport error, retryable or other non-2xx status), the call
returns `None` after exactly 4 attempts instead of raising. -/
theorem c4_fetch_contract (o : Nat → Outcome) :
    (∀ n body, n < 4 → (∀ k, k < n → retryable (o k)) →
        o n = Outcome.resp 404 body →
        (fetch_html o 4).result = none ∧ (fetch_html o 4).attempts = n + 1) ∧
    ((∀ k, k < 4 → retryable (o k)) →
        (fetch_html o 4).result = none ∧ (fetch_html o 4).attempts = 4) := by
  constructor
  · intro n body hn hr h404
    have h := fetchLoop_404 o 4 0 (4 / 5) n body hn
      (fun k _ h2 => hr k (by omega)) (by simpa using h404)
    simpa [fetch_html] using h
  · intro hr
    have h := fetchLoop_all_retryable o 4 0 (4 / 5) (fun k _ h2 => hr k (by omega))
    simpa [fetch_html] using h

/-- Outcome sequence witnessing C4: a timeout on attempt 1, then 404. -/
def c4Outcomes : Nat → Outcome := fun k =>
  if k = 0 then Outcome.timeout else Outcome.resp 404 ""

theorem c4_fetch_contract_witness :
    (fetch_html c4Outcomes 4).result = none ∧
    (fetch_html c4Outcomes 4).attempts = 2 :=
  (c4_fetch_contract c4Outcomes).1 1 "" (by omega)
    (fun k hk => by
      have hk0 : k = 0 := by omega
      subst hk0
      simp [c4Outcomes, retryable])
    (by simp [c4Outcomes])

/-- C10: every body returned as a success by `fetch_html` is non-empty —
a 200 response with an empty body is never returned as success, and a
run whose every attempt sees a 200 response with empty body exhausts the
attempt ceiling and yields `None`, the same no-data result as a failed
or not-found fetch. -/
theorem c10_success_body_nonempty (o : Nat → Outcome) :
    (∀ s, (fetch_html o 4).result = some s → s ≠ "") ∧
    ((∀ k, k < 4 → o k = Outcome.resp 200 "") → (fetch_html o 4).result = none) := by
  constructor
  · intro s h
    exact fetchLoop_success_nonempty o 4 0 (4 / 5) s (by simpa [fetch_html] using h)
  · intro h
    have hr : ∀ k, 0 ≤ k → k < 0 + 4 → retryable (o k) := by
      intro k _ hk
      rw [h k (by omega)]
      exact ⟨by norm_num, by simp⟩
    exact (fetchLoop_all_retryable o 4 0 (4 / 5) hr).1

/-- Outcome sequence for the C10 witness: always 200 with body "ok". -/
def c10GoodOutcomes : Nat → Outcome := fun _ => Outcome.resp 200 "ok"

/-- Outcome sequence for the C10 witness: always 200 with empty body. -/
def c10EmptyOutcomes : Nat → Outcome := fun _ => Outcome.resp 200 ""

theorem c10_success_body_nonempty_witness :
    ("ok" ≠ "") ∧ (fetch_html c10EmptyOutcomes 4).result = none :=
  ⟨(c10_success_body_nonempty c10GoodOutcomes).1 "ok" (by decide),
   (c10_success_body_nonempty c10EmptyOutcomes).2 (fun k _ => rfl)⟩

/-- Python str.strip(): drop leading and trailing whitespace. -/
def pyStrip (cs : List Char) : List Char :=
  ((cs.dropWhile Char.isWhitespace).reverse.dropWhile Char.isWhitespace).reverse

/-- Value of a run of decimal digit characters (the int() of the match
groups in parse_downloads and parse_mmddyyyy). -/
def digitsToNat (ds : List Char) : Nat :=
  ds.foldl (fun n c => 10 * n + (c.toNat - 48)) 0

/-- Python round() on an exact non-negative fraction num / den: round
half to even.  Float arithmetic in parse_downloads is modelled as exact
rational arithmetic; the matched value  d1.d2  times the suffix
multiplier is the fraction  digits(d1 ++ d2) * mult / 10 ^ |d2|. -/
def roundHalfEven (num den : Nat) : Nat :=
  let f := num / den
  let r := num % den
  if 2 * r < den then f
  else if den < 2 * r then f + 1
  else if f % 2 = 0 then f else f + 1

/-- Membership in the character class [KkMmBb] of parse_downloads. -/
def isSuffixChar (c : Char) : Bool :=
  c == 'K' || c == 'k' || c == 'M' || c == 'm' || c == 'B' || c == 'b'

/-- The multiplier chosen by parse_downloads for an upper-cased suffix:
K is 10^3, M is 10^6, B is 10^9. -/
def suffixMult (c : Char) : Nat :=
  if c = 'K' ∨ c = 'k' then 1000
  else if c = 'M' ∨ c = 'm' then 1000000
  else 1000000000

/-- Anchored match of the regex  (digits, optional fraction, optional
magnitude suffix, end of string)  used by parse_downloads
(src/main.py line 87), yielding the digits of the integer part, the
digits of the fractional part (empty when absent), and the optional
suffix character; the matched value is the decimal  intPart.fracPart. -/
def matchNumber (cs : List Char) : Option (List Char × List Char × Option Char) :=
  let d1 := cs.takeWhile Char.isDigit
  let r1 := cs.dropWhile Char.isDigit
  if d1.isEmpty then none
  else
    match r1 with
    | [] => some (d1, [], none)
    | '.' :: r2 =>
        let d2 := r2.takeWhile Char.isDigit
        let r3 := r2.dropWhile Char.isDigit
        if d2.isEmpty then none
        else
          match r3 with
          | [] => some (d1, d2, none)
          | [c] => if isSuffixChar c then some (d1, d2, some c) else none
          | _ => none
    | [c] => if isSuffixChar c then some (d1, [], some c) else none
    | _ => none

/-- re.search of one-or-more digits: the first maximal run of decimal
digit characters, used as the fallback in parse_downloads. -/
def firstDigitRun : List Char → Option (List Char)
  | [] => none
  | c :: cs =>
      if c.isDigit then some (c :: cs.takeWhile Char.isDigit)
      else firstDigitRun cs

/-- parse_downloads (src/main.py lines 83-102): empty input gives None;
otherwise strip whitespace and remove commas; a pure number with optional
K/M/B suffix (case-insensitive) is scaled by the multiplier and rounded
to the nearest integer (half to even, as Python's round); otherwise the
first run of digits is returned; no digits at all gives None.  The
scaled value  digits(d1).digits(d2) * mult  is the exact fraction
digits(d1 ++ d2) * mult / 10 ^ |d2|. -/
def parse_downloads (text : String) : Option Nat :=
  if text = "" then none
  else
    let raw := (pyStrip text.toList).filter (fun c => !(c == ','))
    match matchNumber raw with
    | some (d1, d2, suf) =>
        let mult : Nat :=
          match suf with
          | some c => suffixMult c
          | none => 1
        some (roundHalfEven (digitsToNat (d1 ++ d2) * mult) (10 ^ d2.length))
    | none =>
        match firstDigitRun raw with
        | some ds => some (digitsToNat ds)
        | none => none

theorem mem_of_mem_dropWhile (p : Char → Bool) (cs : List Char) (c : Char)
    (h : c ∈ cs.dropWhile p) : c ∈ cs := by
  induction cs with
  | nil => simp at h
  | cons d cs' ih =>
      rw [List.dropWhile_cons] at h
      by_cases hp : p d = true
      · simp only [hp, if_true] at h
        exact List.mem_cons_of_mem _ (ih h)
      · simp only [hp, if_false] at h
        exact h

theorem mem_of_mem_pyStrip (cs : List Char) (c : Char) (h : c ∈ pyStrip cs) :
    c ∈ cs := by
  unfold pyStrip at h
  rw [List.mem_reverse] at h
  have h1 := mem_of_mem_dropWhile _ _ _ h
  rw [List.mem_reverse] at h1
  exact mem_of_mem_dropWhile _ _ _ h1

theorem matchNumber_no_digits (cs : List Char)
    (h : ∀ c ∈ cs, c.isDigit = false) : matchNumber cs = none := by
  have hd : cs.takeWhile Char.isDigit = [] := by
    cases cs with
    | nil => rfl
    | cons c cs' => simp [List.takeWhile_cons, h c (by simp)]
  simp [matchNumber, hd]

theorem firstDigitRun_no_digits (cs : List Char)
    (h : ∀ c ∈ cs, c.isDigit = false) : firstDigitRun cs = none := by
  induction cs with
  | nil => rfl
  | cons c cs' ih =>
      unfold firstDigitRun
      rw [if_neg (by simp [h c (by simp)])]
      exact ih (fun d hd => h d (List.mem_cons_of_mem _ hd))

theorem roundHalfEven_dist (num den : Nat) (hden : 0 < den) :
    |(roundHalfEven num den : ℚ) - (num : ℚ) / den| ≤ 1 / 2 := by
  have hden' : (0 : ℚ) < den := by exact_mod_cast hden
  have hnum : (den : ℚ) * (num / den : Nat) + (num % den : Nat) = num := by
    exact_mod_cast Nat.div_add_mod num den
  have hdiv : (num : ℚ) / den = (num / den : Nat) + (num % den : Nat) / den := by
    field_simp
    linarith
  have hrnn : (0 : ℚ) ≤ (num % den : Nat) / den := by positivity
  have hrlt : ((num % den : Nat) : ℚ) / den < 1 := by
    rw [div_lt_one hden']
    exact_mod_cast Nat.mod_lt num hden
  simp only [roundHalfEven]
  split_ifs with h1 h2 h3
  · have hx : ((num % den : Nat) : ℚ) / den < 1 / 2 := by
      rw [div_lt_iff₀ hden']
      have : ((2 * (num % den) : Nat) : ℚ) < den := by exact_mod_cast h1
      push_cast at this
      linarith
    rw [hdiv, show ((num / den : Nat) : ℚ) - ((num / den : Nat) + (num % den : Nat) / den) =
      -(((num % den : Nat) : ℚ) / den) by ring, abs_neg, abs_of_nonneg hrnn]
    linarith
  · have hx : (1 : ℚ) / 2 < ((num % den : Nat) : ℚ) / den := by
      rw [lt_div_iff₀ hden']
      have : (den : ℚ) < ((2 * (num % den) : Nat) : ℚ) := by exact_mod_cast h2
      push_cast at this
      linarith
    rw [hdiv]
    push_cast
    rw [show ((num / den : Nat) : ℚ) + 1 - ((num / den : Nat) + (num % den : Nat) / den) =
      1 - ((num % den : Nat) : ℚ) / den by ring,
      abs_of_nonneg (by linarith)]
    linarith
  · have hx : ((num % den : Nat) : ℚ) / den = 1 / 2 := by
      have heq : 2 * (num % den) = den := by omega
      rw [div_eq_iff (ne_of_gt hden')]
      have : ((2 * (num % den) : Nat) : ℚ) = den := by exact_mod_cast congrArg Nat.cast heq
      push_cast at this
      linarith
    rw [hdiv, show ((num / den : Nat) : ℚ) - ((num / den : Nat) + (num % den : Nat) / den) =
      -(((num % den : Nat) : ℚ) / den) by ring, abs_neg, abs_of_nonneg hrnn, hx]
  · have hx : ((num % den : Nat) : ℚ) / den = 1 / 2 := by
      have heq : 2 * (num % den) = den := by omega
      rw [div_eq_iff (ne_of_gt hden')]
      have : ((2 * (num % den) : Nat) : ℚ) = den := by exact_mod_cast congrArg Nat.cast heq
      push_cast at this
      linarith
    rw [hdiv]
    push_cast
    rw [show ((num / den : Nat) : ℚ) + 1 - ((num / den : Nat) + (num % den : Nat) / den) =
      1 - ((num % den : Nat) : ℚ) / den by ring, hx,
      abs_of_nonneg (by norm_num)]
    norm_num

/-- C7: downloads parsing — "12,345" maps to 12345, "3.2M" to 3200000,
"1K" to 1000, the empty string to None; the magnitude suffixes are
case-insensitive multipliers 10^3 (K), 10^6 (M), 10^9 (B); the scaled
value is rounded to the nearest integer (roundHalfEven never differs
from the exact value by more than 1/2); text not matching the numeric
shape yields the first run of digits ("abc42def" gives 42); and text
containing no digit at all yields None. -/
theorem c7_parse_downloads_spec :
    parse_downloads "12,345" = some 12345 ∧
    parse_downloads "3.2M" = some 3200000 ∧
    parse_downloads "1K" = some 1000 ∧
    parse_downloads "" = none ∧
    parse_downloads "abc42def" = some 42 ∧
    parse_downloads "1k" = some 1000 ∧
    parse_downloads "3.2m" = some 3200000 ∧
    parse_downloads "2B" = some 2000000000 ∧
    parse_downloads "2b" = some 2000000000 ∧
    (∀ s : String, (∀ c ∈ s.toList, c.isDigit = false) → parse_downloads s = none) ∧
    (∀ num den : Nat, 0 < den →
      |(roundHalfEven num den : ℚ) - (num : ℚ) / den| ≤ 1 / 2) := by
  refine ⟨by decide, by decide, by decide, by decide, by decide, by decide, by decide,
    by decide, by decide, ?_, roundHalfEven_dist⟩
  intro s hs
  unfold parse_downloads
  by_cases hempty : s = ""
  · rw [if_pos hempty]
  · rw [if_neg hempty]
    have hraw : ∀ c ∈ (pyStrip s.toList).filter (fun c => !(c == ',')), c.isDigit = false := by
      intro c hc
      exact hs c (mem_of_mem_pyStrip _ _ (List.mem_of_mem_filter hc))
    simp only [matchNumber_no_digits _ hraw, firstDigitRun_no_digits _ hraw]

theorem c7_parse_downloads_spec_witness :
    parse_downloads "no digits here" = none ∧
    |(roundHalfEven 7 2 : ℚ) - (7 : ℚ) / 2| ≤ 1 / 2 :=
  ⟨c7_parse_downloads_spec.2.2.2.2.2.2.2.2.2.1 "no digits here" (by decide),
   c7_parse_downloads_spec.2.2.2.2.2.2.2.2.2.2 7 2 (by norm_num)⟩

/-- The MONTHS table of src/main.py (three-letter month names, lower
case) mapping to month numbers. -/
def MONTHS : List (String × Nat) :=
  [("jan", 1), ("feb", 2), ("mar", 3), ("apr", 4), ("may", 5), ("jun", 6),
   ("jul", 7), ("aug", 8), ("sep", 9), ("oct", 10), ("nov", 11), ("dec", 12)]

/-- Anchored match of the regex  (letters, whitespace, one or two
digits, comma, optional whitespace, exactly four digits, end of string)
used by parse_mmddyyyy (src/main.py line 70), yielding the month-name
letters, the day value and the year value. -/
def matchDate (cs : List Char) : Option (List Char × Nat × Nat) :=
  let al := cs.takeWhile Char.isAlpha
  let r1 := cs.dropWhile Char.isAlpha
  if al.isEmpty then none
  else
    let sp := r1.takeWhile Char.isWhitespace
    let r2 := r1.dropWhile Char.isWhitespace
    if sp.isEmpty then none
    else
      let dd := r2.takeWhile Char.isDigit
      let r3 := r2.dropWhile Char.isDigit
      if dd.isEmpty ∨ 2 < dd.length then none
      else
        match r3 with
        | ',' :: r4 =>
            let r5 := r4.dropWhile Char.isWhitespace
            let yy := r5.takeWhile Char.isDigit
            let r6 := r5.dropWhile Char.isDigit
            if yy.length = 4 ∧ r6.isEmpty then some (al, digitsToNat dd, digitsToNat yy)
            else none
        | _ => none

/-- The decimal digit character of n mod 10. -/
def digitChar (n : Nat) : Char := Char.ofNat (48 + n % 10)

/-- Python %02d formatting, for arguments below 100 (the month is at
most 12 and the day is matched as at most two digits). -/
def pad2 (n : Nat) : List Char := [digitChar (n / 10), digitChar n]

/-- Python %04d formatting, for arguments below 10000 (the year is
matched as exactly four digits). -/
def pad4 (n : Nat) : List Char :=
  [digitChar (n / 1000), digitChar (n / 100), digitChar (n / 10), digitChar n]

/-- parse_mmddyyyy (src/main.py lines 66-80): empty input gives None;
otherwise strip, match the "Month D, YYYY" regex, look the lower-cased
month name up in MONTHS, and format year-month-day as an ISO date with
zero padding.  Total by construction: no input raises. -/
def parse_mmddyyyy (text : String) : Option String :=
  if text = "" then none
  else
    match matchDate (pyStrip text.toList) with
    | none => none
    | some (al, day, year) =>
        match MONTHS.lookup (String.mk (al.map Char.toLower)) with
        | none => none
        | some month =>
            some (String.mk (pad4 year ++ '-' :: (pad2 month ++ '-' :: pad2 day)))

/-- A ten-character string of shape DDDD-DD-DD with decimal digits D:
the shape of an ISO calendar date as produced by the f-string of
parse_mmddyyyy. -/
def isIsoDate (s : String) : Bool :=
  match s.toList with
  | [a, b, c, d, h1, e, f, h2, g, k] =>
      h1 == '-' && h2 == '-' && [a, b, c, d, e, f, g, k].all Char.isDigit
  | _ => false

theorem digitChar_isDigit (n : Nat) : (digitChar n).isDigit = true := by
  have h : n % 10 < 10 := Nat.mod_lt _ (by norm_num)
  unfold digitChar
  set k := n % 10 with hk
  interval_cases k <;> rfl

/-- C8: date parsing — "Jan 5, 2023" yields "2023-01-05"; the wrong
format "13/5/2023" yields None; and every successful result has the ISO
calendar-date shape YYYY-MM-DD.  The function is total, so no input
raises an error. -/
theorem c8_parse_date_spec :
    parse_mmddyyyy "Jan 5, 2023" = some "2023-01-05" ∧
    parse_mmddyyyy "13/5/2023" = none ∧
    (∀ s r, parse_mmddyyyy s = some r → isIsoDate r = true) := by
  refine ⟨by decide, by decide, ?_⟩
  intro s r h
  unfold parse_mmddyyyy at h
  split at h
  · exact absurd h (by simp)
  · split at h
    · exact absurd h (by simp)
    · split at h
      · exact absurd h (by simp)
      · rw [Option.some.injEq] at h
        rw [← h]
        simp [isIsoDate, pad4, pad2, digitChar_isDigit]

theorem c8_parse_date_spec_witness : isIsoDate "2023-01-05" = true :=
  c8_parse_date_spec.2.2 "Jan 5, 2023" "2023-01-05" c8_parse_date_spec.1

/-- One catalog record as assembled by parse_card.  The pipeline reads
only the slug field (the deduplication key, possibly empty for
malformed entries); the remaining 17 CSV fields are opaque to the
producer/consumer logic and are collapsed into one payload string. -/
structure Record where
  slug : String
  payload : String
deriving DecidableEq, Repr

/-- Per-page fetch-and-parse outcome seen by the producer (src/main.py
lines 253-266): fetch_html returned None (404 or exhausted retries), or
the page was fetched and parse_search_html returned a list of records,
or parsing raised (diag is the repr(e) plus traceback text, never
empty). -/
inductive PageFetch where
  | noHtml
  | parsed (rows : List Record)
  | parseError (diag : String)
deriving DecidableEq, Repr

/-- One item of the asyncio.Queue between producer and consumer: the
tuple (page, rows, err).  The sentinel is (-1, None, None). -/
structure QueueItem where
  page : Int
  rows : Option (List Record)
  err : Option String
deriving DecidableEq, Repr

/-- The distinguished end-of-stream marker put by the producer after its
loop (src/main.py line 269). -/
def sentinelItem : QueueItem := ⟨-1, none, none⟩

/-- The page-walk loop of producer (src/main.py lines 244-269), as the
list of queue items it emits, in emission order (the queue is FIFO, the
producer is the only writer, the consumer the only reader).  fp gives
each page's fetch-and-parse outcome; the fuel argument is the number of
pages left in the configured range (the loop condition
page < page_from + pages).  A page with no HTML emits a skip item and
advances; a page parsed to zero records breaks out of the loop without
emitting for that page; a page parsed to records emits a data item and
advances; a parse error emits an error item and advances; after the
loop the sentinel is emitted. -/
def producerGo (fp : Int → PageFetch) : Int → Nat → List QueueItem
  | _, 0 => [sentinelItem]
  | page, fuel + 1 =>
    match fp page with
    | PageFetch.noHtml => ⟨page, none, none⟩ :: producerGo fp (page + 1) fuel
    | PageFetch.parsed rows =>
        if rows.isEmpty then [sentinelItem]
        else ⟨page, some rows, none⟩ :: producerGo fp (page + 1) fuel
    | PageFetch.parseError d => ⟨page, none, some d⟩ :: producerGo fp (page + 1) fuel

/-- producer(fetcher, page_from, pages, page_size, out_q): the emitted
queue items for the configured page range. -/
def producer (fp : Int → PageFetch) (page_from : Int) (pages : Nat) : List QueueItem :=
  producerGo fp page_from pages

/-- Python truthiness of the err field (the  if err:  test at line 282):
None and the empty string are falsy. -/
def truthyStr : Option String → Bool
  | none => false
  | some s => s ≠ ""

/-- Consumer state (src/main.py lines 272-304): the in-memory slug set
seen_slugs, the rows appended to the CSV this run — each tagged with
the page index of the queue item it was written while processing — and
the run counters. -/
structure ConsState where
  seen : Finset String
  sink : List (Int × Record)
  total_rows : Nat
  pages_ok : Nat
  pages_skip : Nat
deriving DecidableEq

/-- The per-record dedup-and-append loop of the consumer (src/main.py
lines 293-298): a record whose slug is already in the set is dropped,
otherwise its slug is inserted and the record appended to the CSV. -/
def writeRows (page : Int) (rows : List Record) (st : ConsState) : ConsState :=
  rows.foldl
    (fun acc r =>
      if r.slug ∈ acc.seen then acc
      else { acc with
              seen := insert r.slug acc.seen
              sink := acc.sink ++ [(page, r)]
              total_rows := acc.total_rows + 1 })
    st

/-- Processing of one non-sentinel queue item (src/main.py lines
282-302): a truthy err logs and continues; rows None counts a skip;
otherwise the rows are deduplicated and appended and the page counts as
ok. -/
def consumeItem (st : ConsState) (u : QueueItem) : ConsState :=
  if truthyStr u.err then st
  else
    match u.rows with
    | none => { st with pages_skip := st.pages_skip + 1 }
    | some rows =>
        let st1 := writeRows u.page rows st
        { st1 with pages_ok := st1.pages_ok + 1 }

/-- The consumer drain loop (src/main.py lines 276-302): process the
queue items in emission order, stopping at the first sentinel. -/
def consumerRun (st : ConsState) : List QueueItem → ConsState
  | [] => st
  | u :: rest => if u.page = -1 then st else consumerRun (consumeItem st u) rest

/-- load_existing_slugs (src/main.py lines 231-241): the set of truthy
(non-empty) slug values of the rows already present in the CSV; a
missing file is the empty list of rows. -/
def load_existing_slugs (rows : List Record) : Finset String :=
  rows.foldl (fun s r => if r.slug ≠ "" then insert r.slug s else s) ∅

/-- The consumer state at startup: the loaded key set, no rows appended
yet, all counters zero. -/
def initState (seen : Finset String) : ConsState := ⟨seen, [], 0, 0, 0⟩

/-- One full run of main_async's producer/consumer pipeline over the
configured page range, starting from CSV contents sink0: the final
consumer state.  Its sink field lists the rows appended by this run, in
write order; the CSV after the run is sink0 followed by those rows. -/
def runPipeline (fp : Int → PageFetch) (page_from : Int) (pages : Nat)
    (sink0 : List Record) : ConsState :=
  consumerRun (initState (load_existing_slugs sink0)) (producer fp page_from pages)

/-- The shape of a non-sentinel producer item, determined by the
fetch-and-parse outcome of its page: skip items carry no rows and no
error, data items carry the non-empty parsed rows, error items carry
the diagnostic. -/
def itemFrom (fp : Int → PageFetch) (u : QueueItem) : Prop :=
  match fp u.page with
  | PageFetch.noHtml => u.rows = none ∧ u.err = none
  | PageFetch.parsed rows => rows ≠ [] ∧ u.rows = some rows ∧ u.err = none
  | PageFetch.parseError d => u.rows = none ∧ u.err = some d

theorem producer_split (fp : Int → PageFetch) :
    ∀ pages page, ∃ body,
      producerGo fp page pages = body ++ [sentinelItem] ∧
      List.Chain' (· < ·) (body.map QueueItem.page) ∧
      ∀ u ∈ body, page ≤ u.page ∧ itemFrom fp u := by
  intro pages
  induction pages with
  | zero => intro page; exact ⟨[], rfl, by simp, by simp⟩
  | succ fuel ih =>
      intro page
      obtain ⟨body', hb1, hb2, hb3⟩ := ih (page + 1)
      have build : ∀ u : QueueItem, u.page = page → itemFrom fp u →
          ∃ body, u :: producerGo fp (page + 1) fuel = body ++ [sentinelItem] ∧
            List.Chain' (· < ·) (body.map QueueItem.page) ∧
            ∀ v ∈ body, page ≤ v.page ∧ itemFrom fp v := by
        intro u hup hu
        refine ⟨u :: body', by rw [hb1]; rfl, ?_, ?_⟩
        · rw [List.map_cons]
          apply List.chain'_cons'.mpr
          refine ⟨?_, hb2⟩
          intro y hy
          have hy' : y ∈ body'.map QueueItem.page := List.mem_of_mem_head? hy
          obtain ⟨v, hv, rfl⟩ := List.mem_map.mp hy'
          have hvp := (hb3 v hv).1
          omega
        · intro v hv
          rcases List.mem_cons.mp hv with h | h
          · subst h
            exact ⟨by omega, hu⟩
          · exact ⟨by have := (hb3 v h).1; omega, (hb3 v h).2⟩
      cases hfp : fp page with
      | noHtml =>
          have heq : producerGo fp page (fuel + 1) =
              QueueItem.mk page none none :: producerGo fp (page + 1) fuel := by
            simp [producerGo, hfp]
          rw [heq]
          exact build ⟨page, none, none⟩ rfl (by simp [itemFrom, hfp])
      | parsed rows =>
          by_cases hrows : rows.isEmpty
          · refine ⟨[], ?_, by simp, by simp⟩
            simp [producerGo, hfp, hrows]
          · have heq : producerGo fp page (fuel + 1) =
                QueueItem.mk page (some rows) none :: producerGo fp (page + 1) fuel := by
              simp [producerGo, hfp, hrows]
            rw [heq]
            refine build ⟨page, some rows, none⟩ rfl ?_
            have hne : rows ≠ [] := by simpa [List.isEmpty_iff] using hrows
            simp [itemFrom, hfp, hne]
      | parseError d =>
          have heq : producerGo fp page (fuel + 1) =
              QueueItem.mk page none (some d) :: producerGo fp (page + 1) fuel := by
            simp [producerGo, hfp]
          rw [heq]
          exact build ⟨page, none, some d⟩ rfl (by simp [itemFrom, hfp])

theorem consumerRun_append_sentinel :
    ∀ (body : List QueueItem) (st : ConsState), (∀ u ∈ body, u.page ≠ -1) →
      consumerRun st (body ++ [sentinelItem]) = body.foldl consumeItem st := by
  intro body
  induction body with
  | nil =>
      intro st _
      simp [consumerRun, sentinelItem]
  | cons u rest ih =>
      intro st h
      have hu : u.page ≠ -1 := h u (by simp)
      rw [List.cons_append, consumerRun, if_neg hu, List.foldl_cons]
      exact ih (consumeItem st u) (fun v hv => h v (List.mem_cons_of_mem _ hv))

theorem writeRows_spec (page : Int) :
    ∀ (rows : List Record) (st : ConsState),
      ∃ ext, (writeRows page rows st).sink = st.sink ++ ext ∧
        (∀ x, x ∈ (writeRows page rows st).seen ↔
           x ∈ st.seen ∨ x ∈ ext.map (fun e => e.2.slug)) ∧
        (∀ e ∈ ext, e.2.slug ∉ st.seen ∧ e.2 ∈ rows ∧ e.1 = page) ∧
        (ext.map (fun e => e.2.slug)).Nodup := by
  intro rows
  induction rows with
  | nil =>
      intro st
      exact ⟨[], by simp [writeRows], by simp [writeRows], by simp, by simp⟩
  | cons r rest ih =>
      intro st
      by_cases hmem : r.slug ∈ st.seen
      · have hstep : writeRows page (r :: rest) st = writeRows page rest st := by
          unfold writeRows
          rw [List.foldl_cons, if_pos hmem]
        obtain ⟨ext, h1, h2, h3, h4⟩ := ih st
        rw [hstep]
        exact ⟨ext, h1, h2,
          fun e he => ⟨(h3 e he).1, List.mem_cons_of_mem _ (h3 e he).2.1, (h3 e he).2.2⟩, h4⟩
      · have hstep : writeRows page (r :: rest) st =
            writeRows page rest
              { st with seen := insert r.slug st.seen,
                        sink := st.sink ++ [(page, r)],
                        total_rows := st.total_rows + 1 } := by
          unfold writeRows
          rw [List.foldl_cons, if_neg hmem]
        obtain ⟨ext, h1, h2, h3, h4⟩ := ih
          { st with seen := insert r.slug st.seen,
                    sink := st.sink ++ [(page, r)],
                    total_rows := st.total_rows + 1 }
        rw [hstep]
        refine ⟨(page, r) :: ext, ?_, ?_, ?_, ?_⟩
        · rw [h1]
          simp
        · intro x
          rw [h2 x]
          simp only [Finset.mem_insert, List.map_cons, List.mem_cons]
          tauto
        · intro e he
          rcases List.mem_cons.mp he with h | h
          · subst h
            exact ⟨hmem, by simp, rfl⟩
          · have h3' := h3 e h
            refine ⟨?_, List.mem_cons_of_mem _ h3'.2.1, h3'.2.2⟩
            intro hx
            exact h3'.1 (Finset.mem_insert.mpr (Or.inr hx))
        · rw [List.map_cons]
          apply List.nodup_cons.mpr
          refine ⟨?_, h4⟩
          intro hx
          obtain ⟨e, he, heq⟩ := List.mem_map.mp hx
          exact (h3 e he).1 (heq ▸ Finset.mem_insert_self r.slug st.seen)

theorem consumeItem_spec (st : ConsState) (u : QueueItem) :
    ∃ ext, (consumeItem st u).sink = st.sink ++ ext ∧
      (∀ x, x ∈ (consumeItem st u).seen ↔
         x ∈ st.seen ∨ x ∈ ext.map (fun e => e.2.slug)) ∧
      (∀ e ∈ ext, e.2.slug ∉ st.seen ∧ truthyStr u.err = false ∧
         ∃ rows, u.rows = some rows ∧ e.2 ∈ rows ∧ e.1 = u.page) ∧
      (ext.map (fun e => e.2.slug)).Nodup := by
  unfold consumeItem
  by_cases herr : truthyStr u.err = true
  · rw [if_pos herr]
    exact ⟨[], by simp, by simp, by simp, by simp⟩
  · rw [if_neg herr]
    have herr' : truthyStr u.err = false := by simpa using herr
    cases hrows : u.rows with
    | none =>
        exact ⟨[], by simp, by simp, by simp, by simp⟩
    | some rows =>
        obtain ⟨ext, h1, h2, h3, h4⟩ := writeRows_spec u.page rows st
        exact ⟨ext, h1, h2,
          fun e he => ⟨(h3 e he).1, herr', rows, rfl, (h3 e he).2.1, (h3 e he).2.2⟩, h4⟩

theorem consume_fold_spec :
    ∀ (body : List QueueItem) (st : ConsState),
      ∃ ext, (body.foldl consumeItem st).sink = st.sink ++ ext ∧
        (∀ x, x ∈ (body.foldl consumeItem st).seen ↔
           x ∈ st.seen ∨ x ∈ ext.map (fun e => e.2.slug)) ∧
        (∀ e ∈ ext, e.2.slug ∉ st.seen ∧
           ∃ u ∈ body, truthyStr u.err = false ∧ ∃ rows, u.rows = some rows ∧
             e.2 ∈ rows ∧ e.1 = u.page) ∧
        (ext.map (fun e => e.2.slug)).Nodup := by
  intro body
  induction body with
  | nil => intro st; exact ⟨[], by simp, by simp, by simp, by simp⟩
  | cons u rest ih =>
      intro st
      obtain ⟨e1, h11, h12, h13, h14⟩ := consumeItem_spec st u
      obtain ⟨e2, h21, h22, h23, h24⟩ := ih (consumeItem st u)
      rw [List.foldl_cons]
      refine ⟨e1 ++ e2, ?_, ?_, ?_, ?_⟩
      · rw [h21, h11, List.append_assoc]
      · intro x
        rw [h22 x, h12 x, List.map_append, List.mem_append]
        tauto
      · intro e he
        rcases List.mem_append.mp he with h | h
        · have h13' := h13 e h
          exact ⟨h13'.1, u, by simp, h13'.2⟩
        · have h23' := h23 e h
          refine ⟨fun hx => h23'.1 ((h12 _).mpr (Or.inl hx)), ?_⟩
          obtain ⟨v, hv, hrest⟩ := h23'.2
          exact ⟨v, List.mem_cons_of_mem _ hv, hrest⟩
      · rw [List.map_append]
        apply List.nodup_append.mpr
        refine ⟨h14, h24, ?_⟩
        intro x hx1 hx2
        have h2in : x ∈ (consumeItem st u).seen := (h12 _).mpr (Or.inr hx1)
        obtain ⟨e', he', heq⟩ := List.mem_map.mp hx2
        exact (h23 e' he').1 (heq ▸ h2in)

theorem consume_fold_seen_mono (body : List QueueItem) (st : ConsState) (x : String)
    (h : x ∈ st.seen) : x ∈ (body.foldl consumeItem st).seen := by
  obtain ⟨ext, _, h2, _, _⟩ := consume_fold_spec body st
  exact (h2 x).mpr (Or.inl h)

theorem writeRows_covers (page : Int) :
    ∀ (rows : List Record) (st : ConsState) (r : Record), r ∈ rows →
      r.slug ∈ (writeRows page rows st).seen := by
  intro rows
  induction rows with
  | nil => intro st r hr; simp at hr
  | cons q rest ih =>
      intro st r hr
      by_cases hmem : q.slug ∈ st.seen
      · have hstep : writeRows page (q :: rest) st = writeRows page rest st := by
          unfold writeRows
          rw [List.foldl_cons, if_pos hmem]
        rw [hstep]
        rcases List.mem_cons.mp hr with h | h
        · subst h
          obtain ⟨ext, _, h2, _, _⟩ := writeRows_spec page rest st
          exact (h2 _).mpr (Or.inl hmem)
        · exact ih st r h
      · have hstep : writeRows page (q :: rest) st =
            writeRows page rest
              { st with seen := insert q.slug st.seen,
                        sink := st.sink ++ [(page, q)],
                        total_rows := st.total_rows + 1 } := by
          unfold writeRows
          rw [List.foldl_cons, if_neg hmem]
        rw [hstep]
        rcases List.mem_cons.mp hr with h | h
        · subst h
          obtain ⟨ext, _, h2, _, _⟩ := writeRows_spec page rest
            { st with seen := insert r.slug st.seen,
                      sink := st.sink ++ [(page, r)],
                      total_rows := st.total_rows + 1 }
          exact (h2 _).mpr (Or.inl (Finset.mem_insert_self r.slug st.seen))
        · exact ih _ r h

theorem consume_fold_covers :
    ∀ (body : List QueueItem) (st : ConsState) (u : QueueItem), u ∈ body →
      truthyStr u.err = false → ∀ rows, u.rows = some rows → ∀ r ∈ rows,
        r.slug ∈ (body.foldl consumeItem st).seen := by
  intro body
  induction body with
  | nil => intro st u hu; simp at hu
  | cons v rest ih =>
      intro st u hu herr rows hrows r hr
      rw [List.foldl_cons]
      rcases List.mem_cons.mp hu with h | h
      · subst h
        apply consume_fold_seen_mono
        have hstep : consumeItem st u =
            { writeRows u.page rows st with
                pages_ok := (writeRows u.page rows st).pages_ok + 1 } := by
          unfold consumeItem
          rw [if_neg (by simp [herr]), hrows]
        rw [hstep]
        exact writeRows_covers u.page rows st r hr
      · exact ih (consumeItem st v) u h herr rows hrows r hr

theorem consume_fold_no_new (body : List QueueItem) (st : ConsState)
    (h : ∀ u ∈ body, ∀ rows, u.rows = some rows → ∀ r ∈ rows, r.slug ∈ st.seen) :
    (body.foldl consumeItem st).sink = st.sink := by
  obtain ⟨ext, h1, _, h3, _⟩ := consume_fold_spec body st
  cases hext : ext with
  | nil => rw [h1, hext]; simp
  | cons e t =>
      exfalso
      obtain ⟨hns, u, hu, _, rows, hrows, hmem, _⟩ := h3 e (by rw [hext]; simp)
      exact hns (h u hu rows hrows e.2 hmem)

theorem consumerRun_sink_prefix :
    ∀ (ql : List QueueItem) (st : ConsState),
      ∃ ext, (consumerRun st ql).sink = st.sink ++ ext := by
  intro ql
  induction ql with
  | nil => intro st; exact ⟨[], by simp [consumerRun]⟩
  | cons u rest ih =>
      intro st
      unfold consumerRun
      by_cases hp : u.page = -1
      · rw [if_pos hp]
        exact ⟨[], by simp⟩
      · rw [if_neg hp]
        obtain ⟨e2, h2⟩ := ih (consumeItem st u)
        obtain ⟨e1, h1, _, _, _⟩ := consumeItem_spec st u
        exact ⟨e1 ++ e2, by rw [h2, h1, List.append_assoc]⟩

theorem mem_load_foldl (x : String) :
    ∀ (l : List Record) (acc : Finset String),
      x ∈ l.foldl (fun s r => if r.slug ≠ "" then insert r.slug s else s) acc ↔
        x ∈ acc ∨ (x ≠ "" ∧ x ∈ l.map Record.slug) := by
  intro l
  induction l with
  | nil => intro acc; simp
  | cons r rest ih =>
      intro acc
      rw [List.foldl_cons, ih]
      by_cases hr : r.slug ≠ ""
      · rw [if_pos hr]
        constructor
        · rintro (h | ⟨hx, hmem⟩)
          · rcases Finset.mem_insert.mp h with h | h
            · subst h
              exact Or.inr ⟨hr, by simp⟩
            · exact Or.inl h
          · exact Or.inr ⟨hx, by simp [hmem]⟩
        · rintro (h | ⟨hx, hmem⟩)
          · exact Or.inl (Finset.mem_insert.mpr (Or.inr h))
          · rw [List.map_cons, List.mem_cons] at hmem
            rcases hmem with h | h
            · exact Or.inl (Finset.mem_insert.mpr (Or.inl h))
            · exact Or.inr ⟨hx, h⟩
      · rw [if_neg hr]
        push_neg at hr
        constructor
        · rintro (h | ⟨hx, hmem⟩)
          · exact Or.inl h
          · exact Or.inr ⟨hx, by simp [hmem]⟩
        · rintro (h | ⟨hx, hmem⟩)
          · exact Or.inl h
          · rw [List.map_cons, List.mem_cons] at hmem
            rcases hmem with h | h
            · exact absurd (h.trans hr) hx
            · exact Or.inr ⟨hx, h⟩

theorem mem_load_existing_slugs (l : List Record) (x : String) :
    x ∈ load_existing_slugs l ↔ x ≠ "" ∧ x ∈ l.map Record.slug := by
  unfold load_existing_slugs
  rw [mem_load_foldl]
  simp

theorem pairwise_le_of_const (l : List Int) (c : Int) (h : ∀ x ∈ l, x = c) :
    List.Pairwise (· ≤ ·) l := by
  induction l with
  | nil => exact List.Pairwise.nil
  | cons a t ih =>
      apply List.Pairwise.cons
      · intro b hb
        rw [h a (by simp), h b (List.mem_cons_of_mem _ hb)]
      · exact ih (fun x hx => h x (List.mem_cons_of_mem _ hx))

theorem fold_sink_pages_sorted :
    ∀ (body : List QueueItem) (st : ConsState),
      List.Pairwise (· < ·) (body.map QueueItem.page) →
      (∀ e ∈ st.sink, ∀ u ∈ body, e.1 ≤ u.page) →
      List.Pairwise (· ≤ ·) (st.sink.map Prod.fst) →
      List.Pairwise (· ≤ ·) ((body.foldl consumeItem st).sink.map Prod.fst) := by
  intro body
  induction body with
  | nil => intro st _ _ h3; simpa using h3
  | cons u rest ih =>
      intro st hpw hbound hsorted
      rw [List.foldl_cons]
      rw [List.map_cons, List.pairwise_cons] at hpw
      obtain ⟨e1, h11, _, h13, _⟩ := consumeItem_spec st u
      apply ih
      · exact hpw.2
      · intro e he v hv
        rw [h11] at he
        rcases List.mem_append.mp he with h | h
        · exact hbound e h v (List.mem_cons_of_mem _ hv)
        · obtain ⟨rows, _, _, hp⟩ := (h13 e h).2.2
          rw [hp]
          exact le_of_lt (hpw.1 v.page (List.mem_map.mpr ⟨v, hv, rfl⟩))
      · rw [h11, List.map_append]
        apply List.pairwise_append.mpr
        refine ⟨hsorted, ?_, ?_⟩
        · apply pairwise_le_of_const _ u.page
          intro x hx
          obtain ⟨e, he, rfl⟩ := List.mem_map.mp hx
          obtain ⟨rows, _, _, hp⟩ := (h13 e he).2.2
          exact hp
        · intro a ha b hb
          obtain ⟨ea, hea, rfl⟩ := List.mem_map.mp ha
          obtain ⟨eb, heb, rfl⟩ := List.mem_map.mp hb
          obtain ⟨rows, _, _, hpb⟩ := (h13 eb heb).2.2
          rw [hpb]
          exact hbound ea hea u (by simp)

theorem consumerRun_cons (st : ConsState) (u : QueueItem) (rest : List QueueItem)
    (h : u.page ≠ -1) :
    consumerRun st (u :: rest) = consumerRun (consumeItem st u) rest := by
  unfold consumerRun
  rw [if_neg h]
  cases rest <;> rfl

/-- C2: ordering — the producer emits non-sentinel queue items in
strictly increasing page order, and since the consumer drains the
single FIFO queue in emission order (the item list), the rows it
appends to the sink are in non-decreasing page-index order; per-request
latency only delays emission, it never permutes the queue. -/
theorem c2_sink_page_order (fp : Int → PageFetch) (page_from : Int) (pages : Nat)
    (sink0 : List Record) (hpf : 1 ≤ page_from) :
    (∃ body, producer fp page_from pages = body ++ [sentinelItem] ∧
       List.Chain' (· < ·) (body.map QueueItem.page)) ∧
    List.Pairwise (· ≤ ·) ((runPipeline fp page_from pages sink0).sink.map Prod.fst) := by
  obtain ⟨body, h1, h2, h3⟩ := producer_split fp pages page_from
  refine ⟨⟨body, h1, h2⟩, ?_⟩
  have hne : ∀ u ∈ body, u.page ≠ -1 := by
    intro u hu
    have := (h3 u hu).1
    omega
  unfold runPipeline producer
  rw [h1, consumerRun_append_sentinel body _ hne]
  apply fold_sink_pages_sorted
  · exact List.chain'_iff_pairwise.mp h2
  · intro e he
    simp [initState] at he
  · simp [initState]

/-- A one-page catalog instantiating the ordering theorem. -/
def c2Fp : Int → PageFetch := fun _ => PageFetch.parsed [⟨"mod-a", "x"⟩]

theorem c2_sink_page_order_witness :
    (∃ body, producer c2Fp 1 1 = body ++ [sentinelItem] ∧
       List.Chain' (· < ·) (body.map QueueItem.page)) ∧
    List.Pairwise (· ≤ ·) ((runPipeline c2Fp 1 1 []).sink.map Prod.fst) :=
  c2_sink_page_order c2Fp 1 1 [] (by norm_num)

/-- C3: end-of-catalog termination — from any producer state whose
current page fetches successfully but parses to zero records, the
remaining emission is exactly the distinguished sentinel: no data,
error or skip item is emitted for that page, no further configured page
is attempted, and the consumer stops at the sentinel with its state
unchanged. -/
theorem c3_empty_parse_halts (fp : Int → PageFetch) (page : Int) (fuel : Nat)
    (st : ConsState) (hfp : fp page = PageFetch.parsed []) (hfuel : 0 < fuel) :
    producerGo fp page fuel = [sentinelItem] ∧
    consumerRun st (producerGo fp page fuel) = st := by
  cases fuel with
  | zero => omega
  | succ m =>
      have h1 : producerGo fp page (m + 1) = [sentinelItem] := by
        simp [producerGo, hfp]
      refine ⟨h1, ?_⟩
      rw [h1]
      rfl

/-- A catalog that is empty from its first page. -/
def c3Fp : Int → PageFetch := fun _ => PageFetch.parsed []

theorem c3_empty_parse_halts_witness :
    producerGo c3Fp 1 5 = [sentinelItem] ∧
    consumerRun (initState ∅) (producerGo c3Fp 1 5) = initState ∅ :=
  c3_empty_parse_halts c3Fp 1 5 (initState ∅) rfl (by norm_num)

/-- A catalog whose only record carries an empty slug: page 1 yields it
and page 2 is the natural end of the catalog. -/
def c1Fp : Int → PageFetch := fun p =>
  if p = 1 then PageFetch.parsed [⟨"", "data"⟩] else PageFetch.parsed []

/-- C1 is false as stated: over a catalog containing a record whose
slug is empty, the first run appends the record, yet the second run
over the unchanged catalog appends it again (one new row, a duplicate
empty key), because load_existing_slugs skips falsy slugs. -/
theorem c1_second_run_adds_row :
    (runPipeline c1Fp 1 2 []).sink.map Prod.snd = [⟨"", "data"⟩] ∧
    (runPipeline c1Fp 1 2 ((runPipeline c1Fp 1 2 []).sink.map Prod.snd)).sink =
      [(1, ⟨"", "data"⟩)] := by
  constructor <;> decide

/-- C1 (amended): for catalogs whose parsed records all carry a
non-empty slug, the pipeline is idempotent — a second run over the same
page range against the sink produced by the first run appends zero new
rows, the keys appended by the first run are pairwise distinct, and
none of them was already present in the sink, because the consumer
drops every record whose slug is in the key set loaded at startup.
(The amendment excludes empty slugs: load_existing_slugs skips falsy
slug values, so an empty-slug record is re-appended by every run, as
the counterexample shows.) -/
theorem c1_idempotence_nonempty_slugs (fp : Int → PageFetch) (page_from : Int)
    (pages : Nat) (sink0 : List Record) (hpf : 1 ≤ page_from)
    (hslug : ∀ p rows, fp p = PageFetch.parsed rows → ∀ r ∈ rows, r.slug ≠ "") :
    (runPipeline fp page_from pages
        (sink0 ++ (runPipeline fp page_from pages sink0).sink.map Prod.snd)).sink = [] ∧
    ((runPipeline fp page_from pages sink0).sink.map (fun e => e.2.slug)).Nodup ∧
    (∀ e ∈ (runPipeline fp page_from pages sink0).sink,
       e.2.slug ∉ load_existing_slugs sink0) := by
  obtain ⟨body, hb1, hb2, hb3⟩ := producer_split fp pages page_from
  have hne : ∀ u ∈ body, u.page ≠ -1 := by
    intro u hu
    have := (hb3 u hu).1
    omega
  have hrun : ∀ s0 : List Record, runPipeline fp page_from pages s0 =
      body.foldl consumeItem (initState (load_existing_slugs s0)) := by
    intro s0
    unfold runPipeline producer
    rw [hb1, consumerRun_append_sentinel body _ hne]
  obtain ⟨ext1, h1sink, h1seen, h1ent, h1nd⟩ :=
    consume_fold_spec body (initState (load_existing_slugs sink0))
  have hsink1 : (runPipeline fp page_from pages sink0).sink = ext1 := by
    rw [hrun sink0, h1sink]
    rfl
  have hdata : ∀ u ∈ body, ∀ rows, u.rows = some rows →
      fp u.page = PageFetch.parsed rows ∧ u.err = none := by
    intro u hu rows hrows
    have hit := (hb3 u hu).2
    cases hcase : fp u.page with
    | noHtml =>
        simp only [itemFrom, hcase] at hit
        rw [hit.1] at hrows
        exact absurd hrows (by simp)
    | parsed rows0 =>
        simp only [itemFrom, hcase] at hit
        rw [hit.2.1, Option.some.injEq] at hrows
        exact ⟨by rw [hrows], hit.2.2⟩
    | parseError d =>
        simp only [itemFrom, hcase] at hit
        rw [hit.1] at hrows
        exact absurd hrows (by simp)
  refine ⟨?_, ?_, ?_⟩
  · rw [hsink1, hrun]
    have hall : ∀ u ∈ body, ∀ rows, u.rows = some rows → ∀ r ∈ rows,
        r.slug ∈ (initState (load_existing_slugs
          (sink0 ++ ext1.map Prod.snd))).seen := by
      intro u hu rows hrows r hr
      have hcov := consume_fold_covers body (initState (load_existing_slugs sink0)) u hu
        (by rw [(hdata u hu rows hrows).2]; rfl) rows hrows r hr
      have hrne : r.slug ≠ "" := hslug u.page rows (hdata u hu rows hrows).1 r hr
      show r.slug ∈ load_existing_slugs (sink0 ++ ext1.map Prod.snd)
      rw [mem_load_existing_slugs]
      refine ⟨hrne, ?_⟩
      rw [List.map_append, List.mem_append]
      rcases (h1seen _).mp hcov with hl | hr2
      · have hl' : r.slug ∈ load_existing_slugs sink0 := hl
        rw [mem_load_existing_slugs] at hl'
        exact Or.inl hl'.2
      · right
        rw [List.map_map]
        simpa [Function.comp] using hr2
    rw [consume_fold_no_new body _ hall]
    rfl
  · rw [hsink1]
    exact h1nd
  · intro e he
    rw [hsink1] at he
    exact (h1ent e he).1

/-- A catalog with one non-empty-slug record, instantiating the amended
idempotence theorem. -/
def c1wFp : Int → PageFetch := fun p =>
  if p = 1 then PageFetch.parsed [⟨"mod-a", "x"⟩] else PageFetch.parsed []

theorem c1_idempotence_nonempty_slugs_witness :
    (runPipeline c1wFp 1 2
        ([] ++ (runPipeline c1wFp 1 2 []).sink.map Prod.snd)).sink = [] ∧
    ((runPipeline c1wFp 1 2 []).sink.map (fun e => e.2.slug)).Nodup ∧
    (∀ e ∈ (runPipeline c1wFp 1 2 []).sink, e.2.slug ∉ load_existing_slugs []) :=
  c1_idempotence_nonempty_slugs c1wFp 1 2 [] (by norm_num) (by
    intro p rows hp r hr
    unfold c1wFp at hp
    split at hp
    · injection hp with h
      subst h
      rw [List.mem_singleton] at hr
      subst hr
      decide
    · injection hp with h
      subst h
      simp at hr)

/-- A catalog whose first page carries two records with empty slugs. -/
def c5Fp : Int → PageFetch := fun p =>
  if p = 1 then PageFetch.parsed [⟨"", "a"⟩, ⟨"", "b"⟩] else PageFetch.parsed []

/-- C5 is false as stated: two empty-slug records arrive in the same
data item, but only the first is appended — the second is deduplicated
against the in-memory key set once the empty string has been inserted,
so empty-slug records are not exempt from deduplication within a run. -/
theorem c5_second_empty_slug_dropped :
    c5Fp 1 = PageFetch.parsed [⟨"", "a"⟩, ⟨"", "b"⟩] ∧
    (runPipeline c5Fp 1 2 []).sink = [(1, ⟨"", "a"⟩)] := by
  constructor
  · rfl
  · decide

/-- The records the consumer iterates over during a run, in processing
order, each tagged with the page of the queue item it arrives in: data
items contribute their rows in order (the loop at src/main.py line
293), error and skip items contribute nothing.  This is the order in
which the dedup check at line 294 sees records. -/
def recordStream : List QueueItem → List (Int × Record)
  | [] => []
  | u :: rest =>
      if truthyStr u.err then recordStream rest
      else
        match u.rows with
        | none => recordStream rest
        | some rows => rows.map (fun r => (u.page, r)) ++ recordStream rest

theorem recordStream_append :
    ∀ l1 l2 : List QueueItem,
      recordStream (l1 ++ l2) = recordStream l1 ++ recordStream l2 := by
  intro l1 l2
  induction l1 with
  | nil => rfl
  | cons u rest ih =>
      rw [List.cons_append]
      by_cases herr : truthyStr u.err = true
      · simp only [recordStream, herr, if_true]
        exact ih
      · have herr' : truthyStr u.err = false := by simpa using herr
        cases hrows : u.rows with
        | none =>
            simp only [recordStream, herr', hrows, Bool.false_eq_true, if_false]
            exact ih
        | some rows =>
            simp only [recordStream, herr', hrows, Bool.false_eq_true, if_false]
            rw [ih, List.append_assoc]

theorem writeRows_first_empty (page : Int) :
    ∀ (rows : List Record) (st : ConsState) (r : Record),
      "" ∉ st.seen → rows.find? (fun q => q.slug == "") = some r →
      (page, r) ∈ (writeRows page rows st).sink := by
  intro rows
  induction rows with
  | nil => intro st r _ hfind; simp at hfind
  | cons q rest ih =>
      intro st r hseen hfind
      rcases Bool.eq_false_or_eq_true (q.slug == "") with hq | hq
      · simp only [List.find?_cons, hq, Option.some.injEq] at hfind
        have hqe : q.slug = "" := by simpa using hq
        have hnotin : q.slug ∉ st.seen := by
          rw [hqe]
          exact hseen
        have hw : writeRows page (q :: rest) st =
            writeRows page rest
              { st with seen := insert q.slug st.seen,
                        sink := st.sink ++ [(page, q)],
                        total_rows := st.total_rows + 1 } := by
          unfold writeRows
          rw [List.foldl_cons, if_neg hnotin]
        rw [hw]
        obtain ⟨ext2, h2sink, _, _, _⟩ := writeRows_spec page rest
          { st with seen := insert q.slug st.seen,
                    sink := st.sink ++ [(page, q)],
                    total_rows := st.total_rows + 1 }
        rw [h2sink, ← hfind]
        apply List.mem_append.mpr
        left
        show (page, q) ∈ st.sink ++ [(page, q)]
        simp
      · simp only [List.find?_cons, hq] at hfind
        have hqne : q.slug ≠ "" := by simpa using hq
        by_cases hmem : q.slug ∈ st.seen
        · have hw : writeRows page (q :: rest) st = writeRows page rest st := by
            unfold writeRows
            rw [List.foldl_cons, if_pos hmem]
          rw [hw]
          exact ih st r hseen hfind
        · have hw : writeRows page (q :: rest) st =
              writeRows page rest
                { st with seen := insert q.slug st.seen,
                          sink := st.sink ++ [(page, q)],
                          total_rows := st.total_rows + 1 } := by
            unfold writeRows
            rw [List.foldl_cons, if_neg hmem]
          rw [hw]
          apply ih _ r _ hfind
          intro hx
          rcases Finset.mem_insert.mp hx with h | h
          · exact hqne h.symm
          · exact hseen h

theorem consume_fold_first_empty :
    ∀ (body : List QueueItem) (st : ConsState) (p : Int) (r : Record),
      "" ∉ st.seen →
      (recordStream body).find? (fun e => e.2.slug == "") = some (p, r) →
      (p, r) ∈ (body.foldl consumeItem st).sink := by
  intro body
  induction body with
  | nil => intro st p r _ hfind; simp [recordStream] at hfind
  | cons u rest ih =>
      intro st p r hseen hfind
      rw [List.foldl_cons]
      by_cases herr : truthyStr u.err = true
      · have hstream : recordStream (u :: rest) = recordStream rest := by
          simp only [recordStream, herr, if_true]
        have hstate : consumeItem st u = st := by
          unfold consumeItem
          rw [if_pos herr]
        rw [hstream] at hfind
        rw [hstate]
        exact ih st p r hseen hfind
      · have herr' : truthyStr u.err = false := by simpa using herr
        cases hrows : u.rows with
        | none =>
            have hstream : recordStream (u :: rest) = recordStream rest := by
              simp only [recordStream, herr', hrows, Bool.false_eq_true, if_false]
            have hstate : consumeItem st u = { st with pages_skip := st.pages_skip + 1 } := by
              unfold consumeItem
              rw [if_neg herr, hrows]
            rw [hstream] at hfind
            rw [hstate]
            exact ih _ p r hseen hfind
        | some rows =>
            have hstream : recordStream (u :: rest) =
                rows.map (fun q => (u.page, q)) ++ recordStream rest := by
              simp only [recordStream, herr', hrows, Bool.false_eq_true, if_false]
            rw [hstream, List.find?_append] at hfind
            have hstate : consumeItem st u =
                { writeRows u.page rows st with
                    pages_ok := (writeRows u.page rows st).pages_ok + 1 } := by
              unfold consumeItem
              rw [if_neg herr, hrows]
            cases hfst : (rows.map (fun q => ((u.page : Int), q))).find?
                (fun e => e.2.slug == "") with
            | some e =>
                rw [hfst, show ∀ o : Option (Int × Record), (some e).or o = some e
                    from fun _ => rfl, Option.some.injEq] at hfind
                rw [List.find?_map, Option.map_eq_some'] at hfst
                obtain ⟨r0, hr0, hfr0⟩ := hfst
                have hpr : ((u.page : Int), r0) = (p, r) := by rw [hfr0, hfind]
                have hmem1 : ((u.page : Int), r0) ∈ (writeRows u.page rows st).sink :=
                  writeRows_first_empty u.page rows st r0 hseen hr0
                rw [hpr] at hmem1
                rw [hstate]
                obtain ⟨ext3, h3sink, _, _, _⟩ := consume_fold_spec rest
                  { writeRows u.page rows st with
                      pages_ok := (writeRows u.page rows st).pages_ok + 1 }
                rw [h3sink]
                apply List.mem_append.mpr
                left
                exact hmem1
            | none =>
                rw [hfst, show ∀ o : Option (Int × Record), Option.or none o = o
                    from fun _ => rfl] at hfind
                have hnone : ∀ q ∈ rows, q.slug ≠ "" := by
                  intro q hq
                  have hnp := List.find?_eq_none.mp hfst ((u.page : Int), q)
                    (List.mem_map.mpr ⟨q, hq, rfl⟩)
                  simpa using hnp
                obtain ⟨e1, _, h12, h13, _⟩ := consumeItem_spec st u
                have hseen' : "" ∉ (consumeItem st u).seen := by
                  intro hx
                  rcases (h12 _).mp hx with h | h
                  · exact hseen h
                  · obtain ⟨e, he, heq⟩ := List.mem_map.mp h
                    obtain ⟨_, _, rows', hrows', hmem', _⟩ := h13 e he
                    rw [hrows, Option.some.injEq] at hrows'
                    rw [← hrows'] at hmem'
                    exact hnone e.2 hmem' heq
                exact ih _ p r hseen' hfind

/-- C5 (amended): the key set loaded at startup never contains the
empty slug (load_existing_slugs skips falsy values), so the first
empty-slug record the consumer meets in a run — at any position of any
data item's rows, on any page — is appended, on every run, even when
the sink already holds empty-slug rows; yet within one run at most one
empty-slug row is appended, because once the empty string enters the
in-memory set, later empty-slug records are deduplicated like any
other.  The first empty-slug record of the run is the one List.find?
locates in the stream of records the consumer processes, in order. -/
theorem c5_empty_slug_reinserted (fp : Int → PageFetch) (page_from : Int) (pages : Nat)
    (sink0 : List Record) (hpf : 1 ≤ page_from) :
    "" ∉ load_existing_slugs sink0 ∧
    ((runPipeline fp page_from pages sink0).sink.filter
        (fun e => e.2.slug == "")).length ≤ 1 ∧
    (∀ p r, (recordStream (producer fp page_from pages)).find?
        (fun e => e.2.slug == "") = some (p, r) →
      (p, r) ∈ (runPipeline fp page_from pages sink0).sink) := by
  have hload : "" ∉ load_existing_slugs sink0 := by
    rw [mem_load_existing_slugs]
    simp
  refine ⟨hload, ?_, ?_⟩
  · obtain ⟨body, hb1, hb2, hb3⟩ := producer_split fp pages page_from
    have hne : ∀ u ∈ body, u.page ≠ -1 := by
      intro u hu
      have := (hb3 u hu).1
      omega
    obtain ⟨ext1, h1sink, _, _, h1nd⟩ :=
      consume_fold_spec body (initState (load_existing_slugs sink0))
    have hsink1 : (runPipeline fp page_from pages sink0).sink = ext1 := by
      unfold runPipeline producer
      rw [hb1, consumerRun_append_sentinel body _ hne, h1sink]
      rfl
    rw [hsink1]
    have hcount : (ext1.filter (fun e => e.2.slug == "")).length =
        (ext1.map (fun e => e.2.slug)).count "" := by
      rw [List.count, List.countP_eq_length_filter, List.filter_map, List.length_map]
      rfl
    rw [hcount]
    exact List.nodup_iff_count_le_one.mp h1nd ""
  · intro p r hfind
    obtain ⟨body, hb1, hb2, hb3⟩ := producer_split fp pages page_from
    have hne : ∀ u ∈ body, u.page ≠ -1 := by
      intro u hu
      have := (hb3 u hu).1
      omega
    have hstream : recordStream (producer fp page_from pages) = recordStream body := by
      unfold producer
      rw [hb1, recordStream_append, show recordStream [sentinelItem] = [] from rfl,
        List.append_nil]
    rw [hstream] at hfind
    unfold runPipeline producer
    rw [hb1, consumerRun_append_sentinel body _ hne]
    exact consume_fold_first_empty body _ p r hload hfind

/-- A catalog whose sole empty-slug record sits in second position on
the second page, instantiating the amended C5 theorem away from the
head of the first page. -/
def c5wFp : Int → PageFetch := fun p =>
  if p = 1 then PageFetch.parsed [⟨"mod-a", "x"⟩]
  else if p = 2 then PageFetch.parsed [⟨"mod-b", "y"⟩, ⟨"", "w"⟩]
  else PageFetch.parsed []

theorem c5_empty_slug_reinserted_witness :
    "" ∉ load_existing_slugs [] ∧
    ((runPipeline c5wFp 1 3 []).sink.filter (fun e => e.2.slug == "")).length ≤ 1 ∧
    (2, ⟨"", "w"⟩) ∈ (runPipeline c5wFp 1 3 []).sink := by
  obtain ⟨h1, h2, h3⟩ := c5_empty_slug_reinserted c5wFp 1 3 [] (by norm_num)
  exact ⟨h1, h2, h3 2 ⟨"", "w"⟩ (by decide)⟩

/-- The author join of parse_card (src/main.py lines 120-121): the
stripped author-node texts are collected into a Python set — dropping
empty texts and duplicates — and joined with "; " in the set's
iteration order.  CPython's set iteration order for strings depends on
the per-process hash seed (hash randomization), so the order is
modelled as an explicit enumeration parameter; parse_card_authors is
the joined string the code produces when the runtime enumerates the set
in that order. -/
def parse_card_authors (order : List String) : String :=
  String.intercalate "; " order

/-- order is one possible iteration order of the Python set built from
the author texts: it lists, without repetition, exactly the non-empty
elements of texts. -/
def authorsEnum (texts order : List String) : Prop :=
  order.Nodup ∧ (∀ s ∈ order, s ∈ texts ∧ s ≠ "") ∧
    (∀ s ∈ texts, s ≠ "" → s ∈ order)

/-- C9: the author join is NOT deterministic across process runs — for
the same card fragment with author texts ["alice", "bob"], both
enumeration orders are valid iteration orders of the same set (actual
CPython orders differ between processes because string hashing is
seeded per process), yet they join to different strings, so the output
is not a function of the input fragment alone, contradicting the
required reproducibility. -/
theorem c9_author_join_not_deterministic :
    authorsEnum ["alice", "bob"] ["alice", "bob"] ∧
    authorsEnum ["alice", "bob"] ["bob", "alice"] ∧
    parse_card_authors ["alice", "bob"] ≠ parse_card_authors ["bob", "alice"] := by
  refine ⟨⟨?_, ?_, ?_⟩, ⟨?_, ?_, ?_⟩, ?_⟩ <;> decide
